import Mathlib

/-!
Verification of the steady Navier-Stokes solver (Stokes initial solve +
incremental Picard iteration) against its natural-language specification.

The development shallowly embeds the element-local weak-form assembly of
`Stokes<dim>::assemble` and `IncrementalStokes<dim>::assemble`
(src/src/SteadyNavierStokes.cpp), the Picard iteration controller of
`IncrementalStokes<dim>::solve`, the convergence-norm MEASURE step, the
Krylov-solve usage contract, and the post-processing point-pressure
MPI_MAX reduction of `IncrementalStokes<dim>::compute_lift_drag`.

C++ `double` arithmetic is idealized as real arithmetic; distributed
vectors are total functions on a finite index type; the mesh-dependent
finite-element data (shape-function values, gradients, quadrature weights,
face normals) are arbitrary lists of per-quadrature-point records, so all
theorems hold for every mesh, basis and quadrature rule.
-/

noncomputable section

namespace NSSolver

/-- Euclidean pairing of two `dim`-vectors: deal.II `Tensor<1,dim> * Tensor<1,dim>`
and `scalar_product` on rank-1 tensors. -/
def dotP {d : ℕ} (a b : Fin d → ℝ) : ℝ := ∑ k, a k * b k

/-- Frobenius pairing of two rank-2 tensors: deal.II `scalar_product(A, B)`. -/
def tensContract {d : ℕ} (A B : Fin d → Fin d → ℝ) : ℝ := ∑ k, ∑ l, A k l * B k l

/-- deal.II `transpose` of a rank-2 tensor. -/
def matT {d : ℕ} (A : Fin d → Fin d → ℝ) : Fin d → Fin d → ℝ := fun i j => A j i

/-- deal.II contraction `Tensor<1,dim> * Tensor<2,dim>`: `(u * A) j = ∑ k, u k * A k j`. -/
def vecMat {d : ℕ} (u : Fin d → ℝ) (A : Fin d → Fin d → ℝ) : Fin d → ℝ :=
  fun j => ∑ k, u k * A k j

/-- Directional (convective) derivative `((a · ∇)u)_l = ∑ k, a k * (∇u)_{l k}`,
where `G l k = ∂u_l/∂x_k` is the deal.II gradient convention.  This is the
form the specification writes as `a · ∇u`. -/
def dirDeriv {d : ℕ} (a : Fin d → ℝ) (G : Fin d → Fin d → ℝ) : Fin d → ℝ :=
  fun l => ∑ k, a k * G l k

/-- Euclidean norm of a coefficient vector, `sqrt (∑ v k * v k)`. -/
def l2normF {m : ℕ} (v : Fin m → ℝ) : ℝ := Real.sqrt (∑ k, v k * v k)

/-- Data available at one volume quadrature point of one locally owned cell
during `IncrementalStokes<dim>::assemble`: quadrature weight times Jacobian
(`fe_values.JxW(q)`), the velocity/pressure shape-function evaluations
(`phi_u`, `grad_phi_u`, `div_phi_u`, `phi_p` arrays of the source), and the
previous Picard iterate's velocity value and gradient at the point
(`previous_velocity_values[q]`, `previous_velocity_gradients[q]`, obtained
from `solution_old` via `get_function_values`/`get_function_gradients`). -/
structure QP (d m : ℕ) where
  w : ℝ
  phi_u : Fin m → Fin d → ℝ
  grad_phi_u : Fin m → Fin d → Fin d → ℝ
  div_phi_u : Fin m → ℝ
  phi_p : Fin m → ℝ
  prevU : Fin d → ℝ
  prevGradU : Fin d → Fin d → ℝ

/-- Quadrature-point data independent of the linearization state (shape
functions and weight only); the previous-iterate fields of `QP` are produced
from it and a coefficient vector by `mkQP`. -/
structure QPb (d m : ℕ) where
  w : ℝ
  phi_u : Fin m → Fin d → ℝ
  grad_phi_u : Fin m → Fin d → Fin d → ℝ
  div_phi_u : Fin m → ℝ
  phi_p : Fin m → ℝ

/-- Finite-element evaluation of the velocity field with coefficients `U` at a
quadrature point: `u(x_q) = ∑ j, U j * phi_u_j(x_q)` — the semantics of
deal.II `get_function_values` on `solution_old`. -/
def evalU {d m : ℕ} (b : QPb d m) (U : Fin m → ℝ) : Fin d → ℝ :=
  fun l => ∑ j, U j * b.phi_u j l

/-- Finite-element evaluation of the velocity gradient with coefficients `U`:
the semantics of deal.II `get_function_gradients` on `solution_old`. -/
def evalGradU {d m : ℕ} (b : QPb d m) (U : Fin m → ℝ) : Fin d → Fin d → ℝ :=
  fun l k => ∑ j, U j * b.grad_phi_u j l k

/-- Attach to a state-independent quadrature record the previous-iterate
evaluations determined by the coefficient vector `U`. -/
def mkQP {d m : ℕ} (b : QPb d m) (U : Fin m → ℝ) : QP d m :=
  ⟨b.w, b.phi_u, b.grad_phi_u, b.div_phi_u, b.phi_p, evalU b U, evalGradU b U⟩

/-- Data at one face quadrature point (`fe_face_values`): weight times surface
Jacobian, outward normal, and velocity shape values. -/
structure FaceQP (d m : ℕ) where
  w : ℝ
  normal : Fin d → ℝ
  phi_u : Fin m → Fin d → ℝ

/-- One face of a cell: whether it lies on the domain boundary, its boundary
region tag, and its quadrature data. -/
structure Face (d m : ℕ) where
  atBoundary : Bool
  boundaryId : ℕ
  qps : List (FaceQP d m)

/-- Maximum number of Picard iterations, `maxIter = 10`
(src/include/Incremental_stokes.hpp:95). -/
def maxIter : ℕ := 10

/-- Update-norm convergence tolerance of the Picard loop, `update_tol = 1e-7`
(src/include/Incremental_stokes.hpp:97). -/
def update_tol : ℝ := 1e-7

/-- Prescribed outlet pressure, `p_out = 0`
(src/include/Incremental_stokes.hpp:100). -/
def p_out : ℝ := 0

/-- Boundary tag of the outlet region.  In src/src/SteadyNavierStokes.cpp the
Dirichlet data of both variants maps tag 0 to the inlet profile and tags 2, 3
to zero (walls, obstacle), and `Stokes<dim>::assemble` labels tag 1
"(Outlet)" (line 309); tag 1 is the outlet of this tagging. -/
def outletTag : ℕ := 1

/-- Iteration cap of the initial Stokes GMRES solve:
`SolverControl solver_control(2000, ...)` in `Stokes<dim>::solve`. -/
def stokesMaxIter : ℕ := 2000

/-- Iteration cap of each Picard inner GMRES solve:
`SolverControl solver_control(2'000'000, 1e-4)` in `IncrementalStokes<dim>::solve`. -/
def innerMaxIter : ℕ := 2000000

/-- Element-local system matrix of `IncrementalStokes<dim>::assemble`
(src/src/SteadyNavierStokes.cpp:691-710): per quadrature point, the viscous
term `nu * scalar_product(grad_phi_u[i], grad_phi_u[j]) * JxW`, the two
convective terms written in the source as
`phi_u[j] * transpose(previous_velocity_gradients[q]) * phi_u[i] * JxW` and
`previous_velocity_values[q] * transpose(grad_phi_u[j]) * phi_u[i] * JxW`,
and the two pressure couplings `- phi_p[j] * div_phi_u[i] * JxW`,
`- phi_p[i] * div_phi_u[j] * JxW`. -/
def incLocalMatrix {d m : ℕ} (nu : ℝ) (qps : List (QP d m)) (i j : Fin m) : ℝ :=
  (qps.map (fun qp =>
    nu * tensContract (qp.grad_phi_u i) (qp.grad_phi_u j) * qp.w
    + dotP (vecMat (qp.phi_u j) (matT qp.prevGradU)) (qp.phi_u i) * qp.w
    + dotP (vecMat qp.prevU (matT (qp.grad_phi_u j))) (qp.phi_u i) * qp.w
    - qp.phi_p j * qp.div_phi_u i * qp.w
    - qp.phi_p i * qp.div_phi_u j * qp.w)).sum

/-- Element-local right-hand side of `IncrementalStokes<dim>::assemble`, cell
part only (src/src/SteadyNavierStokes.cpp:712-715): per quadrature point
`previous_velocity_values[q] * transpose(previous_velocity_gradients[q]) * phi_u[i] * JxW`. -/
def incLocalRhsCell {d m : ℕ} (qps : List (QP d m)) (i : Fin m) : ℝ :=
  (qps.map (fun qp =>
    dotP (vecMat qp.prevU (matT qp.prevGradU)) (qp.phi_u i) * qp.w)).sum

/-- Element-local system matrix of `Stokes<dim>::assemble`
(src/src/SteadyNavierStokes.cpp:282-293): viscous term and the two pressure
couplings; no convective terms. -/
def stokesLocalMatrix {d m : ℕ} (nu : ℝ) (qps : List (QP d m)) (i j : Fin m) : ℝ :=
  (qps.map (fun qp =>
    nu * tensContract (qp.grad_phi_u i) (qp.grad_phi_u j) * qp.w
    - qp.div_phi_u i * qp.phi_p j * qp.w
    - qp.div_phi_u j * qp.phi_p i * qp.w)).sum

/-- Element-local pressure-mass matrix of `Stokes<dim>::assemble`
(src/src/SteadyNavierStokes.cpp:295-299):
`phi_p[i] * phi_p[j] / nu * JxW` per quadrature point. -/
def pressureMassLocal {d m : ℕ} (nu : ℝ) (qps : List (QP d m)) (i j : Fin m) : ℝ :=
  (qps.map (fun qp => qp.phi_p i * qp.phi_p j / nu * qp.w)).sum

/-- The specification's pressure-mass form `(p_i, p_j)` (without the `1/nu`
scale): mass pairing of the two pressure shape functions. -/
def massSpecLocal {d m : ℕ} (qps : List (QP d m)) (i j : Fin m) : ℝ :=
  (qps.map (fun qp => qp.phi_p i * qp.phi_p j * qp.w)).sum

/-- Pressure-mass entries produced by an `IncrementalStokes<dim>::assemble`
pass: the routine (src/src/SteadyNavierStokes.cpp:631-752) writes only
`system_matrix` and `system_rhs`, so `pressure_mass` keeps the zero value
given to it by `reinit` in `IncrementalStokes<dim>::setup`. -/
def incAssemblePressureMass {d m : ℕ} (_nu : ℝ) (_qps : List (QP d m)) (_i _j : Fin m) : ℝ := 0

/-- A degree of freedom whose velocity component vanishes identically on the
cell (a pressure-block basis function): its velocity shape value, gradient
and divergence are zero at every quadrature point. -/
def isPressureDof {d m : ℕ} (qps : List (QP d m)) (k : Fin m) : Prop :=
  ∀ qp ∈ qps, (∀ l, qp.phi_u k l = 0) ∧ (∀ l1 l2, qp.grad_phi_u k l1 l2 = 0) ∧ qp.div_phi_u k = 0

/-- A degree of freedom whose pressure component vanishes identically on the
cell (a velocity-block basis function). -/
def isVelocityDof {d m : ℕ} (qps : List (QP d m)) (k : Fin m) : Prop :=
  ∀ qp ∈ qps, qp.phi_p k = 0

/-- Face-selection guard of the Neumann loop in `Stokes<dim>::assemble`
(src/src/SteadyNavierStokes.cpp:314):
`cell->face(f)->at_boundary() && cell->face(f)->boundary_id() == 1`. -/
def stokesNeumannOnFace {d m : ℕ} (f : Face d m) : Bool :=
  f.atBoundary && f.boundaryId == 1

/-- Face-selection guard of the Neumann loop in `IncrementalStokes<dim>::assemble`
(src/src/SteadyNavierStokes.cpp:724):
`cell->face(f)->at_boundary() && (cell->face(f)->boundary_id() == 2)`. -/
def incNeumannOnFace {d m : ℕ} (f : Face d m) : Bool :=
  f.atBoundary && f.boundaryId == 2

/-- Face-selection guard of the Neumann loop in `Stokes::assemble` of
src/src/steady_to_fix/Stokes.cpp:216-217:
`cell->face(f)->at_boundary() && cell->face(f)->boundary_id() == 2`. -/
def stokesFixNeumannOnFace {d m : ℕ} (f : Face d m) : Bool :=
  f.atBoundary && f.boundaryId == 2

/-- Right-hand-side contribution of one selected face:
`-(p_out) * scalar_product(normal_vector(q), phi_u(i, q)) * JxW(q)` summed
over the face quadrature points. -/
def faceContrib {d m : ℕ} (pout : ℝ) (f : Face d m) (i : Fin m) : ℝ :=
  (f.qps.map (fun fq => -pout * dotP fq.normal (fq.phi_u i) * fq.w)).sum

/-- Total face-loop contribution to the local right-hand side in
`IncrementalStokes<dim>::assemble`: only faces passing `incNeumannOnFace`
accumulate anything. -/
def incFaceLayer {d m : ℕ} (pout : ℝ) (faces : List (Face d m)) (i : Fin m) : ℝ :=
  (faces.map (fun f => if incNeumannOnFace f then faceContrib pout f i else 0)).sum

/-- Total face-loop contribution to the local right-hand side in
`Stokes<dim>::assemble` of src/src/SteadyNavierStokes.cpp. -/
def stokesFaceLayer {d m : ℕ} (pout : ℝ) (faces : List (Face d m)) (i : Fin m) : ℝ :=
  (faces.map (fun f => if stokesNeumannOnFace f then faceContrib pout f i else 0)).sum

/-- Total face-loop contribution to the local right-hand side in
`Stokes::assemble` of src/src/steady_to_fix/Stokes.cpp. -/
def stokesFixFaceLayer {d m : ℕ} (pout : ℝ) (faces : List (Face d m)) (i : Fin m) : ℝ :=
  (faces.map (fun f => if stokesFixNeumannOnFace f then faceContrib pout f i else 0)).sum

/-- Complete local right-hand side of `IncrementalStokes<dim>::assemble`:
cell contribution plus Neumann face loop. -/
def incLocalRhs {d m : ℕ} (pout : ℝ) (qps : List (QP d m)) (faces : List (Face d m))
    (i : Fin m) : ℝ :=
  incLocalRhsCell qps i + incFaceLayer pout faces i

/-- Complete local right-hand side of `Stokes::assemble` in
src/src/steady_to_fix/Stokes.cpp: the forcing-term accumulation `base`
plus its Neumann face loop. -/
def stokesFixLocalRhs {d m : ℕ} (pout : ℝ) (base : Fin m → ℝ) (faces : List (Face d m))
    (i : Fin m) : ℝ :=
  base i + stokesFixFaceLayer pout faces i

/-- The specification's first Picard convective linearization term
`(v_j · ∇previous_u) · v_i`, written with the directional derivative. -/
def convPicard1 {d : ℕ} (prevGrad : Fin d → Fin d → ℝ) (vi vj : Fin d → ℝ) : ℝ :=
  dotP (dirDeriv vj prevGrad) vi

/-- The specification's second Picard convective linearization term
`(previous_u · ∇v_j) · v_i`. -/
def convPicard2 {d : ℕ} (prevU : Fin d → ℝ) (gradVj : Fin d → Fin d → ℝ) (vi : Fin d → ℝ) : ℝ :=
  dotP (dirDeriv prevU gradVj) vi

/-- The specification's frozen convective residual term
`(previous_u · ∇previous_u) · v_i`. -/
def convResidualRhs {d : ℕ} (prevU : Fin d → ℝ) (prevGrad : Fin d → Fin d → ℝ)
    (vi : Fin d → ℝ) : ℝ :=
  dotP (dirDeriv prevU prevGrad) vi

/-- Globally assembled system matrix of one `IncrementalStokes<dim>::assemble`
pass, as a function of the previous-iterate coefficient vector `U`: the
quadrature records of all locally owned cells, flattened into one list `qbs`,
with the previous-iterate evaluations determined by `U`. -/
def assembleMatrix {d m : ℕ} (nu : ℝ) (qbs : List (QPb d m)) (U : Fin m → ℝ)
    (i j : Fin m) : ℝ :=
  incLocalMatrix nu (qbs.map (fun b => mkQP b U)) i j

/-- Globally assembled convective right-hand side of one
`IncrementalStokes<dim>::assemble` pass as a function of `U`. -/
def assembleConvRhs {d m : ℕ} (qbs : List (QPb d m)) (U : Fin m → ℝ) (i : Fin m) : ℝ :=
  incLocalRhsCell (qbs.map (fun b => mkQP b U)) i

/-- Linearization-independent (Stokes) part of the assembled matrix: viscous
term and pressure couplings. -/
def stokesPartMat {d m : ℕ} (nu : ℝ) (qbs : List (QPb d m)) (i j : Fin m) : ℝ :=
  (qbs.map (fun b =>
    nu * tensContract (b.grad_phi_u i) (b.grad_phi_u j) * b.w
    - b.phi_p j * b.div_phi_u i * b.w
    - b.phi_p i * b.div_phi_u j * b.w)).sum

/-- Assembled matrix part of the first convective linearization term
`(v_j · ∇u(U)) · v_i`, specification form. -/
def convMat1 {d m : ℕ} (qbs : List (QPb d m)) (U : Fin m → ℝ) (i j : Fin m) : ℝ :=
  (qbs.map (fun b =>
    dotP (dirDeriv (b.phi_u j) (evalGradU b U)) (b.phi_u i) * b.w)).sum

/-- Assembled matrix part of the second convective linearization term
`(u(U) · ∇v_j) · v_i`, specification form. -/
def convMat2 {d m : ℕ} (qbs : List (QPb d m)) (U : Fin m → ℝ) (i j : Fin m) : ℝ :=
  (qbs.map (fun b =>
    dotP (dirDeriv (evalU b U) (b.grad_phi_u j)) (b.phi_u i) * b.w)).sum

/-- Matrix-vector product of an assembled matrix with a coefficient vector. -/
def mulVecF {m : ℕ} (A : Fin m → Fin m → ℝ) (x : Fin m → ℝ) : Fin m → ℝ :=
  fun i => ∑ j, A i j * x j

/-- Residual of the discrete steady Navier-Stokes system at coefficients `U`:
Stokes part applied to `U`, plus the assembled convective term `(u·∇u, v_i)`,
minus the state-independent load `g` (forcing and Neumann face data).  `U` is
an exact solution of the discrete nonlinear system iff this vanishes. -/
def nonlinearResidual {d m : ℕ} (nu : ℝ) (qbs : List (QPb d m)) (g : Fin m → ℝ)
    (U : Fin m → ℝ) (i : Fin m) : ℝ :=
  mulVecF (stokesPartMat nu qbs) U i + assembleConvRhs qbs U i - g i

/-- Modelled from the spec: one Picard body under the section-4.2 solver
contract, idealized as exact.  The repository delegates the inner solve to an
external restart-free GMRES (deal.II `SolverGMRES`, not part of this
repository); `sol` stands for that solver, returning a vector for the system
assembled at the previous iterate `U`; the body then measures the update norm
`‖current - previous‖₂` exactly as the MEASURE step of
`IncrementalStokes<dim>::solve` and hands the solver output on as the new
previous iterate. -/
def exactPicardBody {d m : ℕ} (nu : ℝ) (qbs : List (QPb d m)) (g : Fin m → ℝ)
    (sol : (Fin m → Fin m → ℝ) → (Fin m → ℝ) → (Fin m → ℝ)) :
    (Fin m → ℝ) → (Fin m → ℝ) × ℝ :=
  fun U =>
    (sol (assembleMatrix nu qbs U) (fun i => assembleConvRhs qbs U i + g i),
     l2normF (fun k =>
       sol (assembleMatrix nu qbs U) (fun i => assembleConvRhs qbs U i + g i) k - U k))

/-- Modelled from the spec: the Krylov-solve usage contract of section 4.2
("return an approximate solution and the iteration count used"; a solve that
exhausts the iteration budget "still returns control to the caller rather
than blocking indefinitely or raising a fatal error").  The external GMRES
implementation is not part of this repository; it is modelled as an abstract
iteration `step` with residual measure `res`, which stops as soon as the
residual reaches the tolerance or the budget `fuel` is spent, and always
returns the current vector together with the number of iterations used. -/
def krylovIter {α : Type _} (step : α → α) (res : α → ℝ) (tol : ℝ) :
    ℕ → α → α × ℕ
  | 0, x => (x, 0)
  | fuel + 1, x =>
    if res x ≤ tol then (x, 0)
    else
      ((krylovIter step res tol fuel (step x)).1,
       (krylovIter step res tol fuel (step x)).2 + 1)

/-- The initial Stokes solve's Krylov call, `Stokes<dim>::solve`:
`SolverControl solver_control(2000, 1e-6 * this->system_rhs.l2_norm())`. -/
def stokesSolveKrylov {α : Type _} (step : α → α) (res : α → ℝ) (rhsNorm : ℝ) (x : α) : α × ℕ :=
  krylovIter step res (1e-6 * rhsNorm) stokesMaxIter x

/-- Each Picard-loop inner Krylov call, `IncrementalStokes<dim>::solve`:
`SolverControl solver_control(2'000'000, 1e-4)`. -/
def innerSolveKrylov {α : Type _} (step : α → α) (res : α → ℝ) (x : α) : α × ℕ :=
  krylovIter step res (1e-4) innerMaxIter x

/-- The Picard iteration controller of `IncrementalStokes<dim>::solve`
(src/src/SteadyNavierStokes.cpp:756-816), embedded literally.  Each round of
the `for (iter = 0; iter < maxIter; ++iter)` loop assembles (`aF`), sets
`update_norm = update_tol + 1.0` and tests `update_norm < update_tol`
(breaking if it held), otherwise runs the solve body `b` — GMRES solve,
constraint distribution, update-norm measurement, and `solution_old :=
solution` — obtaining the new state and the measured norm, and breaks when
that norm is below the tolerance.  The returned number counts the loop bodies
executed. -/
def picardLoop {α : Type _} (aF : α → α) (b : α → α × ℝ) (tol : ℝ) :
    ℕ → α → α × ℕ
  | 0, s => (s, 0)
  | n + 1, s =>
    if tol + 1 < tol then (aF s, 1)
    else if (b (aF s)).2 < tol then ((b (aF s)).1, 1)
    else
      ((picardLoop aF b tol n (b (aF s)).1).1,
       (picardLoop aF b tol n (b (aF s)).1).2 + 1)

/-- The same controller with the unreachable pre-solve convergence branch
removed: every round that begins assembles and solves, and terminates only at
the post-solve norm check or by exhausting the iteration budget. -/
def picardClean {α : Type _} (aF : α → α) (b : α → α × ℝ) (tol : ℝ) :
    ℕ → α → α × ℕ
  | 0, s => (s, 0)
  | n + 1, s =>
    if (b (aF s)).2 < tol then ((b (aF s)).1, 1)
    else
      ((picardClean aF b tol n (b (aF s)).1).1,
       (picardClean aF b tol n (b (aF s)).1).2 + 1)

/-- State produced by one full Picard round (assemble then solve body). -/
def picardNext {α : Type _} (aF : α → α) (b : α → α × ℝ) : α → α :=
  fun s => (b (aF s)).1

/-- Update norm measured by one full Picard round started from `s`. -/
def picardMeasure {α : Type _} (aF : α → α) (b : α → α × ℝ) : α → ℝ :=
  fun s => (b (aF s)).2

/-- Per-rank point value before the reduction in
`IncrementalStokes<dim>::compute_lift_drag`
(src/src/SteadyNavierStokes.cpp:1003-1011): initialized to `0.0` and
overwritten with the evaluated pressure only when the point evaluation
succeeded on this rank. -/
def localPointValue (avail : Bool) (v : ℝ) : ℝ := if avail then v else 0

/-- `MPI_Reduce(..., MPI_MAX, ...)` over the per-rank contributions: the
maximum of the list (one entry per rank). -/
def mpiMaxReduce : List ℝ → ℝ
  | [] => 0
  | x :: xs => xs.foldl max x

/-- Reduced point pressure at the root rank: each rank contributes
`localPointValue` of its availability flag and evaluated value
(src/src/SteadyNavierStokes.cpp:1018-1019). -/
def reducedPointPressure (ranks : List (Bool × ℝ)) : ℝ :=
  mpiMaxReduce (ranks.map (fun r => localPointValue r.1 r.2))

/-- Sum of squares accumulated by one rank in the MEASURE step of
`IncrementalStokes<dim>::solve` (src/src/SteadyNavierStokes.cpp:796-798):
the loop `for (k = 0; k < new_res.size(); ++k)` runs over the FULL global
index range of the update vector on every rank. -/
def codeLocalSquares {n : ℕ} (v : Fin n → ℝ) : ℝ := ∑ k, v k * v k

/-- Result of `MPI_Allreduce(..., MPI_SUM, ...)` over `P` ranks each of which
executed the full-range loop above. -/
def codeGlobalSquares (P : ℕ) {n : ℕ} (v : Fin n → ℝ) : ℝ :=
  ∑ _w : Fin P, codeLocalSquares v

/-- Update norm computed by the code with `P` ranks:
`update_norm = std::sqrt(global_sum)`. -/
def codeUpdateNorm (P : ℕ) {n : ℕ} (v : Fin n → ℝ) : ℝ :=
  Real.sqrt (codeGlobalSquares P v)

/-- The serial (single-worker) L2 norm of the full update vector. -/
def serialUpdateNorm {n : ℕ} (v : Fin n → ℝ) : ℝ :=
  Real.sqrt (codeLocalSquares v)

/-- Modelled from the spec (section 4.3 MEASURE): the local sum of squares a
rank contributes when it iterates over exactly the degrees of freedom it
owns, for an ownership map `owner` assigning every index to one rank. -/
def ownedLocalSquares {n : ℕ} (P : ℕ) (owner : Fin n → Fin P) (v : Fin n → ℝ)
    (w : Fin P) : ℝ :=
  ∑ k ∈ Finset.univ.filter (fun k => owner k = w), v k * v k

/-- Update norm of the spec's MEASURE step: per-rank owned sums of squares,
sum-reduced over all ranks, then square-rooted. -/
def ownedUpdateNorm {n : ℕ} (P : ℕ) (owner : Fin n → Fin P) (v : Fin n → ℝ) : ℝ :=
  Real.sqrt (∑ w, ownedLocalSquares P owner v w)

/-- Concrete one-point quadrature record on a two-dof cell used to
instantiate block-structure statements: dof 0 is a velocity-block basis
function, dof 1 a pressure-block basis function. -/
def qpBlockExample : QP 1 2 :=
  ⟨1, fun j _ => if j = 0 then 1 else 0, fun j _ _ => if j = 0 then 1 else 0,
   fun j => if j = 0 then 1 else 0, fun j => if j = 0 then 0 else 1,
   fun _ => 1, fun _ _ => 1⟩

/-- Concrete one-point quadrature record of a one-dof, one-dimensional cell:
unit weight, unit velocity shape value, gradient and divergence, vanishing
pressure shape value.  The assembled nonlinear system degenerates to
`u + u^2 = 0`, whose nonzero root is `u = -1`. -/
def qbFixedExample : QPb 1 1 := ⟨1, fun _ _ => 1, fun _ _ _ => 1, fun _ => 1, fun _ => 0⟩

/-- Constant linear-solver stub returning `-1`, the exact solution of the
system assembled from `qbFixedExample` at the fixed point. -/
def solFixedExample : (Fin 1 → Fin 1 → ℝ) → (Fin 1 → ℝ) → (Fin 1 → ℝ) :=
  fun _A _b _ => -1

theorem list_sum_map_congr {β : Type _} {l : List β} {f g : β → ℝ}
    (h : ∀ a ∈ l, f a = g a) : (l.map f).sum = (l.map g).sum := by
  induction l with
  | nil => rfl
  | cons a l ih =>
    simp only [List.map_cons, List.sum_cons]
    rw [h a (by simp), ih (fun b hb => h b (by simp [hb]))]

theorem list_sum_map_add {β : Type _} (l : List β) (f g : β → ℝ) :
    (l.map fun a => f a + g a).sum = (l.map f).sum + (l.map g).sum := by
  induction l with
  | nil => simp
  | cons a l ih => simp only [List.map_cons, List.sum_cons, ih]; ring

theorem list_sum_map_mul_right {β : Type _} (l : List β) (f : β → ℝ) (c : ℝ) :
    (l.map fun a => f a * c).sum = (l.map f).sum * c := by
  induction l with
  | nil => simp
  | cons a l ih => simp only [List.map_cons, List.sum_cons, ih]; ring

theorem finset_sum_list_sum {β : Type _} {m : ℕ} (l : List β) (F : Fin m → β → ℝ) :
    ∑ j, (l.map (F j)).sum = (l.map fun b => ∑ j, F j b).sum := by
  induction l with
  | nil => simp
  | cons a l ih =>
    simp only [List.map_cons, List.sum_cons, Finset.sum_add_distrib, ih]

theorem vecMat_matT {d : ℕ} (u : Fin d → ℝ) (G : Fin d → Fin d → ℝ) :
    vecMat u (matT G) = dirDeriv u G := rfl

theorem list_sum_map_add3 {β : Type _} (l : List β) (f g h : β → ℝ) :
    (l.map fun a => f a + g a + h a).sum = (l.map f).sum + (l.map g).sum + (l.map h).sum := by
  induction l with
  | nil => simp
  | cons a l ih => simp only [List.map_cons, List.sum_cons, ih]; ring

theorem rowsum_core1 {d m : ℕ} (p : Fin m → Fin d → ℝ) (G : Fin d → Fin d → ℝ)
    (phi : Fin d → ℝ) (w : ℝ) (U : Fin m → ℝ) :
    ∑ j, dotP (dirDeriv (p j) G) phi * w * U j
      = dotP (dirDeriv (fun k => ∑ j, U j * p j k) G) phi * w := by
  simp only [dotP, dirDeriv, Finset.sum_mul, Finset.mul_sum]
  rw [Finset.sum_comm]
  refine Finset.sum_congr rfl fun l _ => ?_
  rw [Finset.sum_comm]
  exact Finset.sum_congr rfl fun k _ => Finset.sum_congr rfl fun j _ => by ring

theorem rowsum_core2 {d m : ℕ} (a : Fin d → ℝ) (Gs : Fin m → Fin d → Fin d → ℝ)
    (phi : Fin d → ℝ) (w : ℝ) (U : Fin m → ℝ) :
    ∑ j, dotP (dirDeriv a (Gs j)) phi * w * U j
      = dotP (dirDeriv a (fun l k => ∑ j, U j * Gs j l k)) phi * w := by
  simp only [dotP, dirDeriv, Finset.sum_mul, Finset.mul_sum]
  rw [Finset.sum_comm]
  refine Finset.sum_congr rfl fun l _ => ?_
  rw [Finset.sum_comm]
  exact Finset.sum_congr rfl fun k _ => Finset.sum_congr rfl fun j _ => by ring

theorem assembleMatrix_split {d m : ℕ} (nu : ℝ) (qbs : List (QPb d m)) (U : Fin m → ℝ)
    (i j : Fin m) :
    assembleMatrix nu qbs U i j
      = stokesPartMat nu qbs i j + convMat1 qbs U i j + convMat2 qbs U i j := by
  unfold assembleMatrix incLocalMatrix stokesPartMat convMat1 convMat2
  rw [List.map_map]
  have step1 : ((fun qp : QP d m =>
      nu * tensContract (qp.grad_phi_u i) (qp.grad_phi_u j) * qp.w
      + dotP (vecMat (qp.phi_u j) (matT qp.prevGradU)) (qp.phi_u i) * qp.w
      + dotP (vecMat qp.prevU (matT (qp.grad_phi_u j))) (qp.phi_u i) * qp.w
      - qp.phi_p j * qp.div_phi_u i * qp.w
      - qp.phi_p i * qp.div_phi_u j * qp.w) ∘ fun b => mkQP b U)
      = fun b : QPb d m =>
        (nu * tensContract (b.grad_phi_u i) (b.grad_phi_u j) * b.w
          - b.phi_p j * b.div_phi_u i * b.w
          - b.phi_p i * b.div_phi_u j * b.w)
        + dotP (dirDeriv (b.phi_u j) (evalGradU b U)) (b.phi_u i) * b.w
        + dotP (dirDeriv (evalU b U) (b.grad_phi_u j)) (b.phi_u i) * b.w := by
    funext b
    simp only [Function.comp_apply, mkQP, vecMat_matT]
    ring
  rw [step1, list_sum_map_add3]

theorem convMat1_rowsum {d m : ℕ} (qbs : List (QPb d m)) (U : Fin m → ℝ) (i : Fin m) :
    ∑ j, convMat1 qbs U i j * U j = assembleConvRhs qbs U i := by
  unfold convMat1 assembleConvRhs incLocalRhsCell
  have h1 : ∀ j : Fin m,
      (qbs.map fun b => dotP (dirDeriv (b.phi_u j) (evalGradU b U)) (b.phi_u i) * b.w).sum * U j
      = (qbs.map fun b =>
           dotP (dirDeriv (b.phi_u j) (evalGradU b U)) (b.phi_u i) * b.w * U j).sum := by
    intro j
    rw [← list_sum_map_mul_right]
  simp only [h1]
  rw [finset_sum_list_sum, List.map_map]
  refine list_sum_map_congr fun b _ => ?_
  simp only [Function.comp_apply, mkQP, vecMat_matT]
  exact rowsum_core1 (fun j => b.phi_u j) (evalGradU b U) (b.phi_u i) b.w U

theorem convMat2_rowsum {d m : ℕ} (qbs : List (QPb d m)) (U : Fin m → ℝ) (i : Fin m) :
    ∑ j, convMat2 qbs U i j * U j = assembleConvRhs qbs U i := by
  unfold convMat2 assembleConvRhs incLocalRhsCell
  have h1 : ∀ j : Fin m,
      (qbs.map fun b => dotP (dirDeriv (evalU b U) (b.grad_phi_u j)) (b.phi_u i) * b.w).sum * U j
      = (qbs.map fun b =>
           dotP (dirDeriv (evalU b U) (b.grad_phi_u j)) (b.phi_u i) * b.w * U j).sum := by
    intro j
    rw [← list_sum_map_mul_right]
  simp only [h1]
  rw [finset_sum_list_sum, List.map_map]
  refine list_sum_map_congr fun b _ => ?_
  simp only [Function.comp_apply, mkQP, vecMat_matT]
  exact rowsum_core2 (evalU b U) (fun j => b.grad_phi_u j) (b.phi_u i) b.w U

theorem fixedPoint_solves_linearized {d m : ℕ} (nu : ℝ) (qbs : List (QPb d m))
    (g : Fin m → ℝ) (U : Fin m → ℝ)
    (h : ∀ i, nonlinearResidual nu qbs g U i = 0) :
    ∀ i, mulVecF (assembleMatrix nu qbs U) U i = assembleConvRhs qbs U i + g i := by
  intro i
  have hs : mulVecF (assembleMatrix nu qbs U) U i
      = mulVecF (stokesPartMat nu qbs) U i
        + (∑ j, convMat1 qbs U i j * U j) + (∑ j, convMat2 qbs U i j * U j) := by
    simp only [mulVecF]
    rw [← Finset.sum_add_distrib, ← Finset.sum_add_distrib]
    refine Finset.sum_congr rfl fun j _ => ?_
    rw [assembleMatrix_split]
    ring
  have hr := h i
  simp only [nonlinearResidual] at hr
  rw [hs, convMat1_rowsum, convMat2_rowsum]
  linarith

theorem krylovIter_count_le {α : Type _} (step : α → α) (res : α → ℝ) (tol : ℝ) :
    ∀ (fuel : ℕ) (x : α), (krylovIter step res tol fuel x).2 ≤ fuel := by
  intro fuel
  induction fuel with
  | zero => intro x; simp [krylovIter]
  | succ n ih =>
    intro x
    simp only [krylovIter]
    by_cases h : res x ≤ tol
    · simp [h]
    · simp only [h, if_false]
      exact Nat.succ_le_succ (ih (step x))

theorem krylovIter_exhaust {α : Type _} (step : α → α) (res : α → ℝ) (tol : ℝ) :
    ∀ (fuel : ℕ) (x : α), (∀ k < fuel, tol < res (step^[k] x)) →
      krylovIter step res tol fuel x = (step^[fuel] x, fuel) := by
  intro fuel
  induction fuel with
  | zero => intro x _; simp [krylovIter]
  | succ n ih =>
    intro x h
    have h0 : tol < res x := by simpa using h 0 (Nat.succ_pos n)
    have hrec : ∀ k < n, tol < res (step^[k] (step x)) := by
      intro k hk
      have := h (k + 1) (Nat.succ_lt_succ hk)
      rwa [Function.iterate_succ_apply] at this
    simp only [krylovIter, not_le.mpr h0, if_false]
    rw [ih (step x) hrec, ← Function.iterate_succ_apply]

theorem picardLoop_eq_clean {α : Type _} (aF : α → α) (b : α → α × ℝ) (tol : ℝ) :
    ∀ (n : ℕ) (s : α), picardLoop aF b tol n s = picardClean aF b tol n s := by
  intro n
  induction n with
  | zero => intro s; rfl
  | succ n ih =>
    intro s
    have hdead : ¬ (tol + 1 < tol) := by linarith
    simp only [picardLoop, picardClean, hdead, if_false, ih]

theorem picardClean_spec {α : Type _} (aF : α → α) (b : α → α × ℝ) (tol : ℝ) :
    ∀ (n : ℕ) (s : α),
      (picardClean aF b tol n s).2 ≤ n ∧
      (picardClean aF b tol n s).1
        = (picardNext aF b)^[(picardClean aF b tol n s).2] s ∧
      ((picardClean aF b tol n s).2 < n ↔
        ∃ j, j < n - 1 ∧ picardMeasure aF b ((picardNext aF b)^[j] s) < tol) := by
  intro n
  induction n with
  | zero =>
    intro s
    refine ⟨le_refl 0, rfl, ?_⟩
    simp
  | succ n ih =>
    intro s
    by_cases h : (b (aF s)).2 < tol
    · simp only [picardClean, h, if_true]
      refine ⟨Nat.succ_le_succ (Nat.zero_le n), ?_, ?_⟩
      · simp [picardNext]
      · constructor
        · intro h1
          refine ⟨0, ?_, ?_⟩
          · omega
          · simpa [picardMeasure] using h
        · intro _
          omega
    · simp only [picardClean, h, if_false]
      obtain ⟨ihle, ihst, ihiff⟩ := ih (picardNext aF b s)
      have hnext : (b (aF s)).1 = picardNext aF b s := rfl
      rw [hnext]
      refine ⟨Nat.succ_le_succ ihle, ?_, ?_⟩
      · rw [ihst, ← Function.iterate_succ_apply]
      · constructor
        · intro h1
          have h2 : (picardClean aF b tol n (picardNext aF b s)).2 < n := by omega
          obtain ⟨j, hj, hm⟩ := ihiff.mp h2
          refine ⟨j + 1, by omega, ?_⟩
          rwa [Function.iterate_succ_apply]
        · intro ⟨j, hj, hm⟩
          match j with
          | 0 =>
            exfalso
            simp only [Function.iterate_zero, id_eq, picardMeasure] at hm
            exact h hm
          | j + 1 =>
            rw [Function.iterate_succ_apply] at hm
            have h2 : (picardClean aF b tol n (picardNext aF b s)).2 < n :=
              ihiff.mpr ⟨j, by omega, hm⟩
            omega

theorem foldl_max_zeros (xs : List ℝ) (a : ℝ) (h : ∀ x ∈ xs, x = 0) (ha : 0 ≤ a) :
    xs.foldl max a = a := by
  induction xs generalizing a with
  | nil => rfl
  | cons x xs ih =>
    have hx : x = 0 := h x (by simp)
    simp only [List.foldl_cons, hx, max_eq_left ha]
    exact ih a (fun y hy => h y (List.mem_cons_of_mem x hy)) ha

theorem reduced_all_zero (l : List (Bool × ℝ)) (h : ∀ x ∈ l, x.1 = false) :
    reducedPointPressure l = 0 := by
  unfold reducedPointPressure
  match l with
  | [] => rfl
  | r :: rest =>
    simp only [List.map_cons, mpiMaxReduce]
    have hr : localPointValue r.1 r.2 = 0 := by
      simp [localPointValue, h r (by simp)]
    rw [hr]
    refine foldl_max_zeros _ 0 ?_ le_rfl
    intro y hy
    rcases List.mem_map.mp hy with ⟨x, hx, rfl⟩
    simp [localPointValue, h x (by simp [hx])]

theorem reduced_unique (pre post : List (Bool × ℝ)) (v : ℝ)
    (h1 : ∀ x ∈ pre, x.1 = false) (h2 : ∀ x ∈ post, x.1 = false) (hv : 0 ≤ v) :
    reducedPointPressure (pre ++ (true, v) :: post) = v := by
  unfold reducedPointPressure
  have hpost : ∀ y ∈ post.map (fun r => localPointValue r.1 r.2), y = 0 := by
    intro y hy
    rcases List.mem_map.mp hy with ⟨x, hx, rfl⟩
    simp [localPointValue, h2 x hx]
  match pre with
  | [] =>
    simp only [List.nil_append, List.map_cons, mpiMaxReduce, localPointValue, if_true]
    exact foldl_max_zeros _ v hpost hv
  | p :: ps =>
    have hps : ∀ y ∈ ps.map (fun r => localPointValue r.1 r.2), y = 0 := by
      intro y hy
      rcases List.mem_map.mp hy with ⟨x, hx, rfl⟩
      simp [localPointValue, h1 x (List.mem_cons_of_mem p hx)]
    have hp : localPointValue p.1 p.2 = 0 := by
      simp [localPointValue, h1 p (List.mem_cons_self p ps)]
    simp only [List.cons_append, List.map_cons, List.map_append, mpiMaxReduce, hp]
    rw [List.foldl_append, foldl_max_zeros _ 0 hps le_rfl, List.foldl_cons,
      show localPointValue true v = v from rfl,
      foldl_max_zeros _ (max 0 v) hpost (le_max_left 0 v)]
    exact max_eq_right hv

theorem list_sum_map_mul_left {β : Type _} (l : List β) (f : β → ℝ) (c : ℝ) :
    (l.map fun a => c * f a).sum = c * (l.map f).sum := by
  induction l with
  | nil => simp
  | cons a l ih => simp only [List.map_cons, List.sum_cons, ih]; ring

theorem list_sum_map_zero {β : Type _} (l : List β) (f : β → ℝ)
    (h : ∀ a ∈ l, f a = 0) : (l.map f).sum = 0 := by
  induction l with
  | nil => rfl
  | cons a l ih =>
    simp only [List.map_cons, List.sum_cons, h a (List.mem_cons_self a l),
      ih (fun b hb => h b (List.mem_cons_of_mem a hb)), add_zero]

theorem list_sum_if_filter {β : Type _} (p : β → Bool) (c : β → ℝ) (l : List β) :
    (l.map fun f => if p f then c f else 0).sum
      = ((l.filter p).map fun f => if p f then c f else 0).sum := by
  induction l with
  | nil => rfl
  | cons a l ih =>
    by_cases h : p a
    · simp only [List.map_cons, List.sum_cons, List.filter_cons, h, if_true, ih]
    · simp only [List.map_cons, List.sum_cons, List.filter_cons, h, if_false,
        Bool.false_eq_true, ih]
      simp

theorem faceContrib_pout_zero {d m : ℕ} (f : Face d m) (i : Fin m) :
    faceContrib p_out f i = 0 := by
  unfold faceContrib p_out
  exact list_sum_map_zero _ _ (fun fq _ => by ring)

theorem owned_fiberwise {n P : ℕ} (owner : Fin n → Fin P) (v : Fin n → ℝ) :
    ∑ w, ownedLocalSquares P owner v w = ∑ k, v k * v k := by
  unfold ownedLocalSquares
  exact Finset.sum_fiberwise Finset.univ owner (fun k => v k * v k)

/-- C1: A Krylov (GMRES) solve that exhausts its iteration budget without
reaching its tolerance is not treated as fatal: under the solver usage
contract of spec section 4.2 the solve is a total function returning the
current vector and the iteration count used (it cannot raise and cannot
hang); the count never exceeds the budget — 2000 for the initial Stokes
solve, 2000000 for each Picard inner solve; if the residual stays above the
tolerance for the whole budget, the solve still returns normally with the
vector produced by the last iteration and the count equal to the budget, and
with a budget of one iteration the returned count is exactly one. -/
theorem krylov_budget_exhaustion_nonfatal {α : Type _} (step : α → α) (res : α → ℝ)
    (x : α) (rhsNorm : ℝ) :
    (stokesSolveKrylov step res rhsNorm x).2 ≤ stokesMaxIter ∧
    (innerSolveKrylov step res x).2 ≤ innerMaxIter ∧
    (∀ (tol : ℝ) (fuel : ℕ), (∀ k < fuel, tol < res (step^[k] x)) →
      krylovIter step res tol fuel x = (step^[fuel] x, fuel)) ∧
    (∀ tol : ℝ, tol < res x → krylovIter step res tol 1 x = (step x, 1)) := by
  refine ⟨krylovIter_count_le step res _ stokesMaxIter x,
    krylovIter_count_le step res _ innerMaxIter x,
    fun tol fuel h => krylovIter_exhaust step res tol fuel x h,
    fun tol h => ?_⟩
  have h1 : ∀ k < 1, tol < res (step^[k] x) := by
    intro k hk
    interval_cases k
    simpa using h
  rw [krylovIter_exhaust step res tol 1 x h1, Function.iterate_one]

/-- Witness for C1: one concrete capped solve — budget 1, residual constantly
2 above the tolerance 1 — returns the stepped vector and the count 1. -/
theorem krylov_budget_exhaustion_nonfatal_witness :
    krylovIter (fun n : ℕ => n + 1) (fun _ => (2:ℝ)) 1 1 0 = (1, 1) :=
  (krylov_budget_exhaustion_nonfatal (fun n : ℕ => n + 1) (fun _ => (2:ℝ)) 0 0).2.2.2 1
    (by norm_num)

/-- C2: the spec's MEASURE reduction — each worker summing the squares of
exactly the entries it owns, sum-reduced and square-rooted — does equal the
serial L2 norm for every ownership partition (first conjunct); but the code's
loop makes every rank sum the FULL index range before the all-reduce, and on
the concrete failing input of 2 ranks and a one-entry update vector `(1)`
the code's norm is `sqrt 2` while the serial norm is `1` (remaining
conjuncts), so the claim fails on the code as written. -/
theorem measure_norm_reduction_bug :
    (∀ (n P : ℕ) (owner : Fin n → Fin P) (v : Fin n → ℝ),
       ownedUpdateNorm P owner v = serialUpdateNorm v) ∧
    codeUpdateNorm 2 (fun _ : Fin 1 => (1:ℝ)) = Real.sqrt 2 ∧
    serialUpdateNorm (fun _ : Fin 1 => (1:ℝ)) = 1 ∧
    codeUpdateNorm 2 (fun _ : Fin 1 => (1:ℝ)) ≠ serialUpdateNorm (fun _ : Fin 1 => (1:ℝ)) := by
  have hcode : codeUpdateNorm 2 (fun _ : Fin 1 => (1:ℝ)) = Real.sqrt 2 := by
    unfold codeUpdateNorm codeGlobalSquares codeLocalSquares
    norm_num
  have hserial : serialUpdateNorm (fun _ : Fin 1 => (1:ℝ)) = 1 := by
    unfold serialUpdateNorm codeLocalSquares
    norm_num
  refine ⟨fun n P owner v => ?_, hcode, hserial, ?_⟩
  · unfold ownedUpdateNorm serialUpdateNorm codeLocalSquares
    rw [owned_fiberwise]
  · rw [hcode, hserial, Ne, Real.sqrt_eq_one]
    norm_num

/-- C3 counterexample: in `IncrementalStokes<dim>::assemble` the Neumann face
loop fires on a boundary face tagged 2 — the walls tag of this program's
Dirichlet table, not the outlet tag 1 — and does not fire on a face carrying
the outlet tag, contradicting "added only for faces on the outlet region". -/
theorem neumann_outlet_only_counterexample :
    incNeumannOnFace (⟨true, 2, []⟩ : Face 2 1) = true ∧
    (⟨true, 2, []⟩ : Face 2 1).boundaryId ≠ outletTag ∧
    incNeumannOnFace (⟨true, outletTag, []⟩ : Face 2 1) = false := by
  refine ⟨rfl, ?_, rfl⟩
  norm_num [outletTag]

/-- C3 amended: in `Stokes<dim>::assemble` the Neumann term is applied
exactly on boundary faces tagged 1 — the outlet, as the claim states —
while in `IncrementalStokes<dim>::assemble` it is applied exactly on
boundary faces tagged 2 (the walls tag of this file's Dirichlet table),
not on the outlet; in both variants faces outside the selected set
(interior faces, or boundary faces with any other tag) contribute nothing
to the right-hand side. -/
theorem neumann_face_selection_amended {d m : ℕ} :
    (∀ f : Face d m,
       stokesNeumannOnFace f = true ↔ f.atBoundary = true ∧ f.boundaryId = outletTag) ∧
    (∀ f : Face d m,
       incNeumannOnFace f = true ↔ f.atBoundary = true ∧ f.boundaryId = 2) ∧
    (∀ (pout : ℝ) (faces : List (Face d m)) (i : Fin m),
       incFaceLayer pout faces i = incFaceLayer pout (faces.filter incNeumannOnFace) i) ∧
    (∀ (pout : ℝ) (faces : List (Face d m)) (i : Fin m),
       stokesFaceLayer pout faces i
         = stokesFaceLayer pout (faces.filter stokesNeumannOnFace) i) := by
  refine ⟨fun f => ?_, fun f => ?_, fun pout faces i => ?_, fun pout faces i => ?_⟩
  · simp [stokesNeumannOnFace, Bool.and_eq_true, beq_iff_eq, outletTag]
  · simp [incNeumannOnFace, Bool.and_eq_true, beq_iff_eq]
  · exact list_sum_if_filter incNeumannOnFace (fun f => faceContrib pout f i) faces
  · exact list_sum_if_filter stokesNeumannOnFace (fun f => faceContrib pout f i) faces

/-- C4: on every locally owned element, the local matrix of the incremental
assembly contains at each quadrature point the two Picard linearization
terms `(v_j · ∇previous_u)·v_i` and `(previous_u · ∇v_j)·v_i` — written
here with the directional derivative the spec means, and proved equal to
the source's `phi_u[j] * transpose(prev_grad) * phi_u[i]` and
`prev_u * transpose(grad_phi_u[j]) * phi_u[i]` contractions — and its local
right-hand side contains `(previous_u · ∇previous_u)·v_i`, each weighted by
the quadrature weight `JxW`. -/
theorem picard_linearization_terms {d m : ℕ} (nu : ℝ) (qps : List (QP d m)) (i j : Fin m) :
    incLocalMatrix nu qps i j
      = (qps.map fun qp =>
          (nu * tensContract (qp.grad_phi_u i) (qp.grad_phi_u j)
           + convPicard1 qp.prevGradU (qp.phi_u i) (qp.phi_u j)
           + convPicard2 qp.prevU (qp.grad_phi_u j) (qp.phi_u i)
           - qp.phi_p j * qp.div_phi_u i
           - qp.phi_p i * qp.div_phi_u j) * qp.w).sum
    ∧ incLocalRhsCell qps i
      = (qps.map fun qp => convResidualRhs qp.prevU qp.prevGradU (qp.phi_u i) * qp.w).sum := by
  constructor
  · unfold incLocalMatrix
    refine list_sum_map_congr fun qp _ => ?_
    simp only [convPicard1, convPicard2, vecMat_matT]
    ring
  · unfold incLocalRhsCell
    refine list_sum_map_congr fun qp _ => ?_
    simp only [convResidualRhs, vecMat_matT]

/-- C5: the Picard loop of `IncrementalStokes<dim>::solve` executes at most
`maxIter = 10` rounds; its final state is the `count`-fold application of one
full round (which sets previous ← current before looping); and it stops
strictly before the cap exactly when some round before the last possible one
measures an update norm below `update_tol = 1e-7`. -/
theorem picard_loop_termination {α : Type _} (aF : α → α) (b : α → α × ℝ) (s : α) :
    (picardLoop aF b update_tol maxIter s).2 ≤ maxIter ∧
    (picardLoop aF b update_tol maxIter s).1
      = (picardNext aF b)^[(picardLoop aF b update_tol maxIter s).2] s ∧
    ((picardLoop aF b update_tol maxIter s).2 < maxIter ↔
      ∃ j, j < maxIter - 1 ∧ picardMeasure aF b ((picardNext aF b)^[j] s) < update_tol) := by
  rw [picardLoop_eq_clean]
  exact picardClean_spec aF b update_tol maxIter s

/-- C9: the pre-solve convergence branch of `IncrementalStokes<dim>::solve`
is unreachable — `update_norm` is set to `update_tol + 1.0` immediately
before the test `update_norm < update_tol`, which therefore never holds —
so the literal loop equals the loop with that branch removed: every round
that begins performs the full assemble-and-solve body, and the loop
terminates only at the post-solve norm check or at the iteration cap. -/
theorem presolve_branch_unreachable {α : Type _} (aF : α → α) (b : α → α × ℝ) (tol : ℝ)
    (n : ℕ) (s : α) :
    picardLoop aF b tol n s = picardClean aF b tol n s ∧
    (picardLoop aF b tol n s).1 = (picardNext aF b)^[(picardLoop aF b tol n s).2] s := by
  refine ⟨picardLoop_eq_clean aF b tol n s, ?_⟩
  rw [picardLoop_eq_clean]
  exact (picardClean_spec aF b tol n s).2.1

/-- C6 counterexample: an `IncrementalStokes<dim>::assemble` pass does not
assemble the pressure-mass companion — its `pressure_mass` matrix keeps the
zero from `reinit` — while the `(1/nu)(p_i,p_j)` entry demanded by the claim
is 1 on the concrete pressure-block pair of `qpBlockExample`; so the claim
"a companion pressure-mass matrix is assembled alongside in every assembly
pass" fails for the incremental pass. -/
theorem pressure_mass_incremental_counterexample :
    incAssemblePressureMass 1 [qpBlockExample] 1 1 = 0 ∧
    pressureMassLocal 1 [qpBlockExample] 1 1 = 1 ∧
    (0:ℝ) ≠ 1 := by
  refine ⟨rfl, ?_, by norm_num⟩
  simp [pressureMassLocal, qpBlockExample]

/-- C6 amended: in every assembly pass of either variant the system matrix's
pressure-pressure block stays zero — every local entry whose two degrees of
freedom are both pressure-block basis functions vanishes — and the
pressure-mass companion, with entries `(1/nu)(p_i,p_j)` vanishing off the
pressure-pressure block, is assembled only by the Stokes pass; the
incremental pass assembles no pressure mass (its matrix stays zero). -/
theorem saddle_point_block_structure_amended {d m : ℕ} (nu : ℝ) (qps : List (QP d m))
    (i j : Fin m) :
    (isPressureDof qps i → isPressureDof qps j →
       incLocalMatrix nu qps i j = 0 ∧ stokesLocalMatrix nu qps i j = 0) ∧
    (isVelocityDof qps i → pressureMassLocal nu qps i j = 0) ∧
    (isVelocityDof qps j → pressureMassLocal nu qps i j = 0) ∧
    pressureMassLocal nu qps i j = 1 / nu * massSpecLocal qps i j ∧
    incAssemblePressureMass nu qps i j = 0 := by
  refine ⟨fun hi hj => ⟨?_, ?_⟩, fun hv => ?_, fun hv => ?_, ?_, rfl⟩
  · unfold incLocalMatrix
    refine list_sum_map_zero _ _ fun qp hm => ?_
    obtain ⟨hpi, hgi, hdi⟩ := hi qp hm
    obtain ⟨hpj, hgj, hdj⟩ := hj qp hm
    simp [dotP, tensContract, vecMat, matT, hpi, hgi, hdi, hpj, hgj, hdj]
  · unfold stokesLocalMatrix
    refine list_sum_map_zero _ _ fun qp hm => ?_
    obtain ⟨hpi, hgi, hdi⟩ := hi qp hm
    obtain ⟨hpj, hgj, hdj⟩ := hj qp hm
    simp [tensContract, hgi, hdi, hdj]
  · unfold pressureMassLocal
    refine list_sum_map_zero _ _ fun qp hm => ?_
    simp [hv qp hm]
  · unfold pressureMassLocal
    refine list_sum_map_zero _ _ fun qp hm => ?_
    simp [hv qp hm]
  · unfold pressureMassLocal massSpecLocal
    rw [← list_sum_map_mul_left]
    refine list_sum_map_congr fun qp _ => ?_
    ring

/-- Witness for C6: on the concrete two-dof cell `qpBlockExample`, whose dof 1
is a pressure-block basis function, both variants' local matrices vanish at
the pressure-pressure pair (1,1). -/
theorem saddle_point_block_structure_witness :
    incLocalMatrix 1 [qpBlockExample] 1 1 = 0 ∧ stokesLocalMatrix 1 [qpBlockExample] 1 1 = 0 := by
  have hP : isPressureDof [qpBlockExample] 1 := by
    intro qp hm
    rw [List.mem_singleton] at hm
    subst hm
    refine ⟨fun l => ?_, fun l1 l2 => ?_, ?_⟩ <;> simp [qpBlockExample]
  exact (saddle_point_block_structure_amended 1 [qpBlockExample] 1 1).1 hP hP

/-- C7 counterexample: two ranks, the unique evaluating rank holds the
pressure value -1, the other reports 0; the MPI_MAX reduction returns 0, not
the evaluating rank's value, refuting the claim as stated. -/
theorem pick_max_reduction_counterexample :
    reducedPointPressure [(true, -1), (false, 0)] = 0 ∧ ((0:ℝ)) ≠ -1 := by
  constructor
  · simp only [reducedPointPressure, List.map_cons, List.map_nil, mpiMaxReduce,
      List.foldl_cons, List.foldl_nil, localPointValue, if_true, if_false]
    norm_num
  · norm_num

/-- C7 amended: under the assumption that at most one worker evaluates the
point and every other worker contributes zero, the MPI_MAX reduction yields
the evaluating worker's pressure value provided that value is nonnegative —
a negative value is replaced by a spurious 0 when any other rank
participates, as the counterexample shows — and if no worker can evaluate
the point, the reduced value is zero. -/
theorem pick_max_reduction_amended :
    (∀ (pre post : List (Bool × ℝ)) (v : ℝ),
       (∀ x ∈ pre, x.1 = false) → (∀ x ∈ post, x.1 = false) → 0 ≤ v →
       reducedPointPressure (pre ++ (true, v) :: post) = v) ∧
    (∀ l : List (Bool × ℝ), (∀ x ∈ l, x.1 = false) → reducedPointPressure l = 0) :=
  ⟨reduced_unique, reduced_all_zero⟩

/-- Witness for C7: with one non-evaluating rank reporting 0 and one
evaluating rank holding the nonnegative value 5, the reduction returns 5. -/
theorem pick_max_reduction_witness :
    reducedPointPressure [(false, 37), (true, 5)] = 5 :=
  pick_max_reduction_amended.1 [(false, 37)] [] 5
    (by intro x hx; rw [List.mem_singleton] at hx; subst hx; rfl)
    (by intro x hx; exact absurd hx (List.not_mem_nil x))
    (by norm_num)

/-- C8: the Picard controller is idempotent at a fixed point.  If the
previous iterate `U` solves the discrete nonlinear system (`nonlinearResidual
= 0`), the linearized system assembled at `U` is solved by `U` itself; with
an inner solve satisfying the section-4.2 contract (returning a solution of
the assembled system, here the unique one by injectivity), the measured
update norm of that round is 0 ≤ `update_tol = 1e-7`, and the literally
embedded loop breaks at its first post-solve convergence check, returning
`U` after exactly one round. -/
theorem picard_fixed_point_idempotent {d m : ℕ} (nu : ℝ) (qbs : List (QPb d m))
    (g : Fin m → ℝ) (U : Fin m → ℝ)
    (sol : (Fin m → Fin m → ℝ) → (Fin m → ℝ) → (Fin m → ℝ))
    (hres : ∀ i, nonlinearResidual nu qbs g U i = 0)
    (hsol : ∀ i, mulVecF (assembleMatrix nu qbs U)
        (sol (assembleMatrix nu qbs U) (fun k => assembleConvRhs qbs U k + g k)) i
        = assembleConvRhs qbs U i + g i)
    (hinj : Function.Injective (mulVecF (assembleMatrix nu qbs U))) :
    (exactPicardBody nu qbs g sol U).2 ≤ update_tol ∧
    picardLoop id (exactPicardBody nu qbs g sol) update_tol maxIter U = (U, 1) := by
  have hfix := fixedPoint_solves_linearized nu qbs g U hres
  have hU : sol (assembleMatrix nu qbs U) (fun k => assembleConvRhs qbs U k + g k) = U := by
    apply hinj
    funext i
    rw [hsol i, hfix i]
  have hbody : exactPicardBody nu qbs g sol U = (U, 0) := by
    simp only [exactPicardBody, hU, sub_self, l2normF]
    rw [Prod.mk.injEq]
    refine ⟨rfl, ?_⟩
    simp
  have htol : (0:ℝ) < update_tol := by norm_num [update_tol]
  constructor
  · rw [hbody]
    exact le_of_lt htol
  · have hdead : ¬ (update_tol + 1 < update_tol) := by linarith
    rw [show maxIter = 9 + 1 from rfl]
    simp only [picardLoop, hdead, if_false, id_eq, hbody]
    rw [if_pos htol]

/-- Witness for C8: on the one-dof instance `qbFixedExample` the discrete
nonlinear system is `u + u^2 = 0`; at its root `u = -1` the assembled Picard
matrix is the invertible `(-1)` and the constant solver `solFixedExample`
returns the exact solution `-1`, so the loop stops after one round. -/
theorem picard_fixed_point_idempotent_witness :
    picardLoop id (exactPicardBody 1 [qbFixedExample] (fun _ => 0) solFixedExample)
      update_tol maxIter (fun _ => (-1:ℝ)) = (fun _ => (-1:ℝ), 1) := by
  have hA : ∀ i j : Fin 1,
      assembleMatrix 1 [qbFixedExample] (fun _ => (-1:ℝ)) i j = -1 := by
    intro i j
    simp [assembleMatrix, incLocalMatrix, mkQP, evalU, evalGradU, dotP, vecMat, matT,
      tensContract, qbFixedExample]
  have hrhs : ∀ i : Fin 1,
      assembleConvRhs [qbFixedExample] (fun _ => (-1:ℝ)) i = 1 := by
    intro i
    simp [assembleConvRhs, incLocalRhsCell, mkQP, evalU, evalGradU, dotP, vecMat, matT,
      qbFixedExample]
  have hS : ∀ i j : Fin 1, stokesPartMat 1 [qbFixedExample] i j = 1 := by
    intro i j
    simp [stokesPartMat, tensContract, qbFixedExample]
  refine (picard_fixed_point_idempotent 1 [qbFixedExample] (fun _ => 0)
    (fun _ => (-1:ℝ)) solFixedExample ?_ ?_ ?_).2
  · intro i
    simp [nonlinearResidual, mulVecF, hS i, hrhs i]
  · intro i
    simp only [mulVecF, solFixedExample, hrhs i]
    simp [hA i]
  · intro x y h
    funext k
    have h2 := congrFun h k
    simp only [mulVecF, Fin.sum_univ_one, hA k 0] at h2
    have hk : k = 0 := Subsingleton.elim k 0
    rw [hk]
    linarith

/-- C10: the outlet pressure `p_out` is the constant 0, so for every mesh,
boundary tagging and quadrature data the Neumann face term adds exactly zero
to each right-hand-side entry: the assembled right-hand side of either
variant equals the one assembled with its outlet face loop removed. -/
theorem p_out_zero_face_term {d m : ℕ} (qps : List (QP d m)) (faces : List (Face d m))
    (base : Fin m → ℝ) (i : Fin m) :
    incLocalRhs p_out qps faces i = incLocalRhsCell qps i ∧
    stokesFixLocalRhs p_out base faces i = base i ∧
    incFaceLayer p_out faces i = 0 ∧
    stokesFixFaceLayer p_out faces i = 0 ∧
    stokesFaceLayer p_out faces i = 0 := by
  have hinc : incFaceLayer p_out faces i = 0 := by
    unfold incFaceLayer
    refine list_sum_map_zero _ _ fun f _ => ?_
    split
    · exact faceContrib_pout_zero f i
    · rfl
  have hfix : stokesFixFaceLayer p_out faces i = 0 := by
    unfold stokesFixFaceLayer
    refine list_sum_map_zero _ _ fun f _ => ?_
    split
    · exact faceContrib_pout_zero f i
    · rfl
  have hst : stokesFaceLayer p_out faces i = 0 := by
    unfold stokesFaceLayer
    refine list_sum_map_zero _ _ fun f _ => ?_
    split
    · exact faceContrib_pout_zero f i
    · rfl
  refine ⟨?_, ?_, hinc, hfix, hst⟩
  · unfold incLocalRhs
    rw [hinc, add_zero]
  · unfold stokesFixLocalRhs
    rw [hfix, add_zero]

end NSSolver
